import Mathlib

/-!
Verification of the AEI standalone tag pipeline.

Shallow embedding of the two programs of the repository:
  * `src/bin/read_tags.py` — the Reader/Decoder: 6-bit-to-8-bit bit codec
    (`unpack_6bit_to_8bit`), bit-field extraction (`bits_to_int`), unit-number
    and owner-mark decoding (`car_number`, `car_owner`, `decode_c1`,
    `decode_c2_c4`), and the read loop's audit-log / dedup / queue behavior.
  * `src/bin/monitor_tag_directory.py` — the Aggregator/Notifier: the aging
    decision, file consumption (`process_tag_file`), and the retry send loop.

Bytes are modelled as `Nat` (values 0..255 in the program; the definitions
follow the source's masking so they are total on all of `Nat`).
-/

namespace AEI

/-! Bit codec: `unpack_6bit_to_8bit` (read_tags.py lines 123-187).

The inner `while buffer_length >= 8` loop is modelled by `drainGo` with an
explicit fuel argument; `buffer_length` itself is enough fuel because every
iteration removes 8 bits from the buffer. -/

/-- The `while buffer_length >= 8` loop body of `unpack_6bit_to_8bit`:
extract the top 8 bits of `bit_buffer` into `output`, keep the leftover
`shift_amount` bits, repeat while at least 8 bits remain. -/
def drainGo : Nat → List Nat → Nat → Nat → List Nat × Nat × Nat
  | 0, output, bit_buffer, buffer_length => (output, bit_buffer, buffer_length)
  | fuel + 1, output, bit_buffer, buffer_length =>
    if 8 ≤ buffer_length then
      let shift_amount := buffer_length - 8
      let new_byte := (bit_buffer >>> shift_amount) &&& 255
      drainGo fuel (output ++ [new_byte]) (bit_buffer &&& ((1 <<< shift_amount) - 1))
        (buffer_length - 8)
    else
      (output, bit_buffer, buffer_length)

/-- One iteration of the `for byte in input_bytes` loop of
`unpack_6bit_to_8bit`: mask the byte with `0x3F`, push its 6 bits into the
buffer, then drain full bytes. State is `(output_bytes, bit_buffer,
buffer_length)`. -/
def unpackStep (st : List Nat × Nat × Nat) (byte : Nat) : List Nat × Nat × Nat :=
  let six_bits := byte &&& 63
  let bit_buffer := (st.2.1 <<< 6) ||| six_bits
  let buffer_length := st.2.2 + 6
  drainGo buffer_length st.1 bit_buffer buffer_length

/-- Embedding of `unpack_6bit_to_8bit` from read_tags.py: repack the low 6 bits of each
input byte, MSB-first, into 8-bit bytes; leftover bits are discarded. -/
def unpack_6bit_to_8bit (input_bytes : List Nat) : List Nat :=
  (input_bytes.foldl unpackStep ([], 0, 0)).1

/-! Field extraction: `bits_to_int` (read_tags.py lines 190-209). -/

/-- Embedding of `bits_to_int` from read_tags.py: read the slice `[start_bit, end_bit)` of
a boolean bit array MSB-first as a big-endian number; an empty or
out-of-range slice yields 0. The guarded indexing `bit_array[start_bit + i]`
is modelled with `getD` (the guard keeps every index in range). -/
def bits_to_int (bit_array : List Bool) (start_bit end_bit : Nat) : Nat :=
  if start_bit ≥ end_bit ∨ end_bit > bit_array.length then 0
  else
    let slice_len := end_bit - start_bit
    (List.range slice_len).foldl
      (fun number i =>
        if bit_array.getD (start_bit + i) false then
          number + (1 <<< (slice_len - 1 - i))
        else number) 0

/-- The bit-array construction shared by `car_number` and `car_owner`
(read_tags.py lines 212-219 and 257-264): each byte contributes its 8 bits
MSB first, `bit = (byte >> i) & 1` for `i = 7, 6, ..., 0`. -/
def byteToBits (byte : Nat) : List Bool :=
  [decide ((byte >>> 7) &&& 1 = 1), decide ((byte >>> 6) &&& 1 = 1),
   decide ((byte >>> 5) &&& 1 = 1), decide ((byte >>> 4) &&& 1 = 1),
   decide ((byte >>> 3) &&& 1 = 1), decide ((byte >>> 2) &&& 1 = 1),
   decide ((byte >>> 1) &&& 1 = 1), decide ((byte >>> 0) &&& 1 = 1)]

/-- Concatenation of all bytes' bits, bit 0 = MSB of the first byte. -/
def toBitArray (input_bytes : List Nat) : List Bool :=
  (input_bytes.map byteToBits).flatten

/-- Embedding of `car_number` from read_tags.py lines 211-234: bits 26 through 45
inclusive (so `bits_to_int` is called with exclusive end `45 + 1 = 46`) of
the unpacked frame, read as a big-endian unsigned integer. -/
def car_number (input_bytes : List Nat) : Nat :=
  bits_to_int (toBitArray input_bytes) 26 46

/-! Owner-mark decoding (read_tags.py lines 236-308). -/

/-- Embedding of `decode_c1`: first owner-mark character, alphabet A=0 .. Z=25,
anything else is the sentinel. -/
def decode_c1 (n1 : Nat) : Char :=
  if n1 ≤ 25 then Char.ofNat (n1 + 65) else '?'

/-- Embedding of `decode_c2_c4`: owner-mark characters 2-4, alphabet blank=0, A=1 .. Z=26,
anything else is the sentinel. -/
def decode_c2_c4 (n : Nat) : Char :=
  if n = 0 then ' '
  else if 1 ≤ n ∧ n ≤ 26 then Char.ofNat (n + 64)
  else '?'

/-- The mixed base-27 positional decomposition of `car_owner`
(read_tags.py lines 280-300): `n1 = V div 27^3`, `r1 = V - n1*27^3`,
`n2 = r1 div 27^2`, `r2 = r1 - n2*27^2`, `n3 = r2 div 27`,
`n4 = r2 - n3*27`. -/
def ownerDigits (value : Nat) : Nat × Nat × Nat × Nat :=
  let n1 := value / 27 ^ 3
  let remainder_n1 := value - n1 * 27 ^ 3
  let n2 := remainder_n1 / 27 ^ 2
  let remainder_n2 := remainder_n1 - n2 * 27 ^ 2
  let n3 := remainder_n2 / 27
  let remainder_n3 := remainder_n2 - n3 * 27
  (n1, n2, n3, remainder_n3)

/-- Embedding of `car_owner` from read_tags.py lines 256-308: bits 7 through 25 inclusive
(exclusive end `25 + 1 = 26`) are read as the value `V`, decomposed in mixed
base 27, and mapped to four characters. -/
def car_owner (input_bytes : List Nat) : String :=
  let value := bits_to_int (toBitArray input_bytes) 7 26
  let d := ownerDigits value
  String.mk [decode_c1 d.1, decode_c2_c4 d.2.1, decode_c2_c4 d.2.2.1,
    decode_c2_c4 d.2.2.2]

/-! Reader read loop (read_tags.py lines 371-409).

Per decoded tag the loop logs the tag, appends a line to the audit log
`/tmp/tags.log` (content `f"{last_read},{current_tag}\n"`, modelled as the
pair `(last_read, current_tag)`), and then — only if the tag differs from
`last_tag` — updates `last_tag` and creates one queue file
`/dev/shm/{last_read}-{i}.tag` (modelled as the triple
`(last_read, i, current_tag)`). -/

/-- State of the Reader process: `last_tag` plus the externally visible
audit-log lines and queue files it has produced. -/
structure ReaderState where
  last_tag : String
  audit_log : List (Nat × String)
  queue : List (Nat × Nat × String)
deriving DecidableEq

/-- Body of the `for i, raw_packet in enumerate(matches)` loop for one
already-decoded tag: audit line always, queue entry only on change. -/
def processTag (last_read : Nat) (i : Nat) (st : ReaderState)
    (current_tag : String) : ReaderState :=
  let st1 : ReaderState :=
    { st with audit_log := st.audit_log ++ [(last_read, current_tag)] }
  if st1.last_tag ≠ current_tag then
    { st1 with
      last_tag := current_tag
      queue := st1.queue ++ [(last_read, i, current_tag)] }
  else
    st1

/-- Processing of the decoded tags of one read, in buffer order with their
`enumerate` indices. -/
def processRead (last_read : Nat) (st : ReaderState) (tags : List String) :
    ReaderState :=
  tags.enum.foldl (fun s p => processTag last_read p.1 s p.2) st

/-! Aggregator and Notifier (monitor_tag_directory.py lines 55-147).

One queue entry file is modelled by its creation time and content. The
polling cycle: if entries exist, run the aging loop to set `emit`; when
`emit` holds, `process_tag_file` reads and deletes every file while the
report body is composed, and only afterwards the send loop runs up to 5
delivery attempts. -/

/-- A `.tag` file in the monitored directory. -/
structure TagFile where
  ctime : Nat
  content : String
deriving DecidableEq

/-- The aging loop of `monitor_directory` (lines 77-87): `emit` starts
`False` and is overwritten for every file — `False` when that file is
younger than 300 seconds, `True` otherwise. -/
def emitDecision (now : Nat) (tag_files : List TagFile) : Bool :=
  tag_files.foldl
    (fun _emit file => if now - file.ctime < 300 then false else true)
    false

/-- The `for i in range(5)` send loop (lines 132-140): attempt delivery,
stop at the first success; the result is the final value of `sent`. -/
def runSendLoop (deliver : Nat → Bool) : List Nat → Bool
  | [] => false
  | i :: rest => if deliver i then true else runSendLoop deliver rest

/-- One polling cycle of `monitor_directory` over the current queue:
returns the queue contents after the cycle and whether a delivery attempt
succeeded. When `emit` holds, every file has been consumed by
`process_tag_file` (read then `os.remove`) during report composition,
before the send loop runs. -/
def monitorCycle (now : Nat) (tag_files : List TagFile)
    (deliver : Nat → Bool) : List TagFile × Bool :=
  if tag_files = [] then (tag_files, false)
  else if emitDecision now tag_files then
    ([], runSendLoop deliver (List.range 5))
  else (tag_files, false)

/-! Helper lemmas: codec output length. -/

/-- Draining with fuel at least `buffer_length` extracts exactly
`buffer_length / 8` bytes and leaves `buffer_length % 8` bits. -/
theorem drainGo_length : ∀ (fuel : Nat) (output : List Nat) (buf len : Nat),
    len ≤ fuel →
    (drainGo fuel output buf len).1.length = output.length + len / 8 ∧
    (drainGo fuel output buf len).2.2 = len % 8 := by
  intro fuel
  induction fuel with
  | zero =>
    intro output buf len h
    have hz : len = 0 := Nat.le_zero.mp h
    subst hz
    simp [drainGo]
  | succ n ih =>
    intro output buf len h
    by_cases h8 : 8 ≤ len
    · have hrec := ih (output ++ [(buf >>> (len - 8)) &&& 255])
        (buf &&& ((1 <<< (len - 8)) - 1)) (len - 8) (by omega)
      simp only [drainGo, if_pos h8]
      simp only [List.length_append, List.length_cons, List.length_nil] at hrec
      omega
    · simp only [drainGo, if_neg h8]
      omega

/-- One `unpackStep` adds 6 to the total bit count
`8 * output_length + buffer_length` and leaves fewer than 8 buffered bits. -/
theorem unpackStep_inv (st : List Nat × Nat × Nat) (byte : Nat) :
    8 * (unpackStep st byte).1.length + (unpackStep st byte).2.2 =
      8 * st.1.length + st.2.2 + 6 ∧ (unpackStep st byte).2.2 < 8 := by
  have h := drainGo_length (st.2.2 + 6) st.1
    ((st.2.1 <<< 6) ||| (byte &&& 63)) (st.2.2 + 6) le_rfl
  simp only [unpackStep]
  omega

/-- Folding `unpackStep` over a byte list adds 6 bits per byte to the
total bit count. -/
theorem foldl_unpack_inv : ∀ (l : List Nat) (st : List Nat × Nat × Nat),
    st.2.2 < 8 →
    8 * (l.foldl unpackStep st).1.length + (l.foldl unpackStep st).2.2 =
      8 * st.1.length + st.2.2 + 6 * l.length ∧
    (l.foldl unpackStep st).2.2 < 8 := by
  intro l
  induction l with
  | nil =>
    intro st h
    simp only [List.foldl_nil, List.length_nil]
    omega
  | cons hd tl ih =>
    intro st h
    have h1 := unpackStep_inv st hd
    have h2 := ih (unpackStep st hd) h1.2
    simp only [List.foldl_cons, List.length_cons]
    omega

/-! Helper lemmas: bounds on `bits_to_int`. -/

/-- A fold that conditionally adds `g i` is bounded by the sum of all
the `g i`. -/
theorem foldl_cond_le (b : Nat → Bool) (g : Nat → Nat) :
    ∀ (l : List Nat) (acc : Nat),
      l.foldl (fun number i => if b i then number + g i else number) acc ≤
        acc + (l.map g).sum := by
  intro l
  induction l with
  | nil => intro acc; simp
  | cons hd tl ih =>
    intro acc
    simp only [List.foldl_cons, List.map_cons, List.sum_cons]
    by_cases h : b hd
    · rw [if_pos h]
      exact le_trans (ih (acc + g hd)) (by omega)
    · rw [if_neg h]
      exact le_trans (ih acc) (by omega)

/-- A fold whose condition never holds returns its accumulator. -/
theorem foldl_cond_false (b : Nat → Bool) (g : Nat → Nat)
    (hb : ∀ i, b i = false) :
    ∀ (l : List Nat) (acc : Nat),
      l.foldl (fun number i => if b i then number + g i else number) acc =
        acc := by
  intro l
  induction l with
  | nil => intro acc; simp
  | cons hd tl ih =>
    intro acc
    simp only [List.foldl_cons, hb hd, Bool.false_eq_true, if_false]
    exact ih acc

/-- Sum of the big-endian place values of an `n`-bit field. -/
theorem sum_pow_range : ∀ n : Nat,
    ((List.range n).map (fun i => 2 ^ (n - 1 - i))).sum = 2 ^ n - 1 := by
  intro n
  induction n with
  | zero => simp
  | succ m ih =>
    rw [List.range_succ, List.map_append, List.sum_append]
    have hmap : (List.range m).map (fun i => 2 ^ (m + 1 - 1 - i)) =
        (List.range m).map (fun i => 2 ^ (m - 1 - i) * 2) := by
      apply List.map_congr_left
      intro i hi
      have hlt : i < m := List.mem_range.mp hi
      have he : m + 1 - 1 - i = (m - 1 - i) + 1 := by omega
      rw [he, pow_succ]
    rw [hmap]
    have hsum : ((List.range m).map (fun i => 2 ^ (m - 1 - i) * 2)).sum =
        ((List.range m).map (fun i => 2 ^ (m - 1 - i))).sum * 2 := by
      rw [← List.sum_map_mul_right]
    rw [hsum, ih]
    have hpow : 1 ≤ 2 ^ m := Nat.one_le_two_pow
    simp only [List.map_cons, List.map_nil, List.sum_cons, List.sum_nil,
      Nat.add_sub_cancel, Nat.sub_self, pow_zero]
    rw [pow_succ]
    omega

/-- Value bound: `bits_to_int` of a field of `end_bit - start_bit` bits is below
`2 ^ (end_bit - start_bit)`. -/
theorem bits_to_int_lt (bit_array : List Bool) (start_bit end_bit : Nat) :
    bits_to_int bit_array start_bit end_bit < 2 ^ (end_bit - start_bit) := by
  have hpow : 1 ≤ 2 ^ (end_bit - start_bit) := Nat.one_le_two_pow
  simp only [bits_to_int]
  split
  · omega
  · have hle := foldl_cond_le (fun i => bit_array.getD (start_bit + i) false)
      (fun i => 1 <<< (end_bit - start_bit - 1 - i))
      (List.range (end_bit - start_bit)) 0
    have hfun : (fun i => 1 <<< (end_bit - start_bit - 1 - i)) =
        (fun i => 2 ^ (end_bit - start_bit - 1 - i)) := by
      funext i
      exact Nat.one_shiftLeft _
    rw [hfun] at hle
    have hsum := sum_pow_range (end_bit - start_bit)
    omega

/-- Every owner-mark digit produced by `ownerDigits` on a value below
`27 ^ 4` is below 27. -/
theorem ownerDigits_lt_27 (v : Nat) (hv : v < 531441) :
    (ownerDigits v).1 < 27 ∧ (ownerDigits v).2.1 < 27 ∧
    (ownerDigits v).2.2.1 < 27 ∧ (ownerDigits v).2.2.2 < 27 := by
  simp only [ownerDigits]
  have h3 : (27 : Nat) ^ 3 = 19683 := by norm_num
  have h2 : (27 : Nat) ^ 2 = 729 := by norm_num
  simp only [h3, h2]
  omega

/-- Character class: `decode_c1` maps every digit below 27 to an uppercase letter, a
blank, or the sentinel. -/
theorem decode_c1_class : ∀ n < 27,
    ('A' ≤ decode_c1 n ∧ decode_c1 n ≤ 'Z') ∨
      decode_c1 n = ' ' ∨ decode_c1 n = '?' := by decide

/-- Character class: `decode_c2_c4` maps every digit below 27 to an uppercase letter, a
blank, or the sentinel. -/
theorem decode_c2_c4_class : ∀ n < 27,
    ('A' ≤ decode_c2_c4 n ∧ decode_c2_c4 n ≤ 'Z') ∨
      decode_c2_c4 n = ' ' ∨ decode_c2_c4 n = '?' := by decide

/-! Claim theorems. -/

/-- C7: for every input byte sequence, the bit codec's output length is
`floor(len(input) * 6 / 8)` bytes; trailing bits short of a full byte are
discarded without error (the codec is total). -/
theorem c7_unpack_length (input_bytes : List Nat) :
    (unpack_6bit_to_8bit input_bytes).length = input_bytes.length * 6 / 8 := by
  have h := foldl_unpack_inv input_bytes ([], 0, 0) (by norm_num)
  simp only [List.length_nil] at h
  simp only [unpack_6bit_to_8bit]
  omega

/-- C5 counterexample: on the input `[0x01, 0x02, 0x03]` the codec does
not produce the claimed `[0x04, 0x30]`. -/
theorem c5_codec_not_claimed_output :
    unpack_6bit_to_8bit [1, 2, 3] ≠ [4, 48] := by decide

/-- C5 (amended): on `[0x01, 0x02, 0x03]` the codec produces
`[0x04, 0x20]`, and the 2 trailing bits that do not complete a byte are
discarded (the final buffer length is 2). -/
theorem c5_codec_output :
    unpack_6bit_to_8bit [1, 2, 3] = [4, 32] ∧
    (([1, 2, 3] : List Nat).foldl unpackStep ([], 0, 0)).2.2 = 2 := by decide

/-- C3 counterexample: bits 26-45 inclusive are 20 bits, so the unit
number does not always fit in 19 bits — on six `0xFF` bytes it is
1048575 > 524287. -/
theorem c3_unit_number_exceeds_19_bits :
    524287 < car_number [255, 255, 255, 255, 255, 255] := by decide

/-- C3 (amended): the unit number is the value of bits 26 through 45
inclusive read as a big-endian unsigned integer, and it always fits in 20
bits, i.e. lies in 0..1048575. -/
theorem c3_unit_number_20_bits (input_bytes : List Nat) :
    car_number input_bytes = bits_to_int (toBitArray input_bytes) 26 46 ∧
    car_number input_bytes ≤ 1048575 := by
  refine ⟨rfl, ?_⟩
  have h := bits_to_int_lt (toBitArray input_bytes) 26 46
  norm_num at h
  simp only [car_number]
  omega

/-- C6: mixed base-27 round-trip — for every `V` in 0..19682999 the digits
of the positional decomposition recompose to `V`. -/
theorem c6_base27_round_trip (V : Nat) (_h : V ≤ 19682999) :
    (ownerDigits V).1 * 27 ^ 3 + (ownerDigits V).2.1 * 27 ^ 2 +
      (ownerDigits V).2.2.1 * 27 + (ownerDigits V).2.2.2 = V := by
  simp only [ownerDigits]
  have h3 : (27 : Nat) ^ 3 = 19683 := by norm_num
  have h2 : (27 : Nat) ^ 2 = 729 := by norm_num
  simp only [h3, h2]
  omega

/-- C6 witness: the round-trip at `V = 12345`. -/
theorem c6_base27_round_trip_witness :
    (ownerDigits 12345).1 * 27 ^ 3 + (ownerDigits 12345).2.1 * 27 ^ 2 +
      (ownerDigits 12345).2.2.1 * 27 + (ownerDigits 12345).2.2.2 = 12345 :=
  c6_base27_round_trip 12345 (by norm_num)

/-- C8: `bits_to_int` is tolerant of short frames — an empty or
past-the-end range yields 0 rather than an error, and over an all-zero
array every range yields 0. -/
theorem c8_bits_to_int_tolerant (bit_array : List Bool)
    (start_bit end_bit : Nat) :
    ((start_bit ≥ end_bit ∨ end_bit > bit_array.length) →
      bits_to_int bit_array start_bit end_bit = 0) ∧
    ((∀ b ∈ bit_array, b = false) →
      bits_to_int bit_array start_bit end_bit = 0) := by
  constructor
  · intro h
    rw [bits_to_int, if_pos h]
  · intro h
    have hz : ∀ i, bit_array.getD i false = false := by
      intro i
      rcases Nat.lt_or_ge i bit_array.length with hi | hi
      · rw [List.getD_eq_getElem bit_array false hi]
        exact h _ (bit_array.getElem_mem hi)
      · exact List.getD_eq_default bit_array false hi
    simp only [bits_to_int]
    split
    · rfl
    · exact foldl_cond_false (fun i => bit_array.getD (start_bit + i) false)
        (fun i => 1 <<< (end_bit - start_bit - 1 - i))
        (fun i => hz (start_bit + i)) (List.range (end_bit - start_bit)) 0

/-- C8 witness: a concrete all-zero array and a concrete past-the-end
range both yield 0. -/
theorem c8_bits_to_int_tolerant_witness :
    bits_to_int [false, false, false] 0 2 = 0 ∧
    bits_to_int [true] 3 5 = 0 :=
  ⟨(c8_bits_to_int_tolerant [false, false, false] 0 2).2 (by decide),
   (c8_bits_to_int_tolerant [true] 3 5).1 (by decide)⟩

/-- C10: the owner-mark decoder is total — for every input byte sequence,
including sequences too short to cover bits 7 through 25, `car_owner`
returns a string of exactly 4 characters, each an uppercase letter,
a space, or the sentinel. -/
theorem c10_car_owner_total (input_bytes : List Nat) :
    (car_owner input_bytes).length = 4 ∧
    ∀ c ∈ (car_owner input_bytes).data,
      ('A' ≤ c ∧ c ≤ 'Z') ∨ c = ' ' ∨ c = '?' := by
  have hv := bits_to_int_lt (toBitArray input_bytes) 7 26
  norm_num at hv
  have hd := ownerDigits_lt_27 (bits_to_int (toBitArray input_bytes) 7 26)
    (by omega)
  constructor
  · rfl
  · intro c hc
    have hc4 : c ∈ [decode_c1 (ownerDigits (bits_to_int (toBitArray input_bytes) 7 26)).1,
        decode_c2_c4 (ownerDigits (bits_to_int (toBitArray input_bytes) 7 26)).2.1,
        decode_c2_c4 (ownerDigits (bits_to_int (toBitArray input_bytes) 7 26)).2.2.1,
        decode_c2_c4 (ownerDigits (bits_to_int (toBitArray input_bytes) 7 26)).2.2.2] := hc
    simp only [List.mem_cons, List.not_mem_nil, or_false] at hc4
    rcases hc4 with rfl | rfl | rfl | rfl
    · exact decode_c1_class _ hd.1
    · exact decode_c2_c4_class _ hd.2.1
    · exact decode_c2_c4_class _ hd.2.2.1
    · exact decode_c2_c4_class _ hd.2.2.2

/-- C4 counterexample: a decoded tag equal to `last_tag` still appends an
audit-log line (the write to `/tmp/tags.log` happens before the dedup
check), though it creates no queue entry. -/
theorem c4_duplicate_still_logged :
    (processTag 5 0 ⟨"GATX 123", [], []⟩ "GATX 123").audit_log.length = 1 ∧
    (processTag 5 0 ⟨"GATX 123", [], []⟩ "GATX 123").queue = [] := by decide

/-- C4 (amended): an audit-log line is appended for every observation,
duplicate or not, while a queue entry is created exactly when the decoded
tag differs from `last_tag`. -/
theorem c4_audit_always_queue_on_change (last_read i : Nat)
    (st : ReaderState) (tag : String) :
    (processTag last_read i st tag).audit_log =
      st.audit_log ++ [(last_read, tag)] ∧
    (processTag last_read i st tag).queue =
      (if st.last_tag ≠ tag then st.queue ++ [(last_read, i, tag)]
       else st.queue) := by
  by_cases h : st.last_tag ≠ tag <;> simp [processTag, h]

/-- C9 counterexample: starting from `LastSeenTag = "GATX 123"`, two
consecutive decoded tags equal to it produce zero queue entries, not
exactly one. -/
theorem c9_repeat_of_last_seen_creates_none :
    (processRead 0 ⟨"GATX 123", [], []⟩ ["GATX 123", "GATX 123"]).queue.length
      = 0 := by decide

/-- C9 (amended): provided the tag differs from the current `LastSeenTag`,
two consecutive identical decoded tags produce exactly one queue entry
(the second is suppressed), and from a state that has just seen the
original tag, an intervening different tag followed by the original again
produces two entries — each change from the immediately preceding tag
creates exactly one entry. -/
theorem c9_dedup_on_change (s t u : String) (ts : Nat)
    (hts : t ≠ s) (hu : u ≠ t) :
    (processRead ts ⟨s, [], []⟩ [t, t]).queue.length = 1 ∧
    (processRead ts ⟨t, [], []⟩ [u, t]).queue.length = 2 := by
  have hst : s ≠ t := Ne.symm hts
  have htu : t ≠ u := Ne.symm hu
  constructor
  · simp [processRead, List.enum, List.enumFrom, processTag, hst]
  · simp [processRead, List.enum, List.enumFrom, processTag, htu, hu]

/-- C9 witness: the amended dedup behavior at concrete tags. -/
theorem c9_dedup_on_change_witness :
    (processRead 7 ⟨"", [], []⟩ ["GATX 123", "GATX 123"]).queue.length = 1 ∧
    (processRead 7 ⟨"GATX 123", [], []⟩ ["TTX 55", "GATX 123"]).queue.length
      = 2 :=
  c9_dedup_on_change ("") ("GATX 123") ("TTX 55") 7 (by decide) (by decide)

/-- C1 counterexample: a flushed batch whose 5 delivery attempts all fail
still loses its queue entry — after the cycle no delivery succeeded, yet
the queue no longer holds the entry. -/
theorem c1_entries_deleted_despite_failure :
    (monitorCycle 400 [⟨0, "GATX 123"⟩] (fun _ => false)).2 = false ∧
    (monitorCycle 400 [⟨0, "GATX 123"⟩] (fun _ => false)).1
      ≠ [⟨0, "GATX 123"⟩] := by decide

/-- C1 (amended): for every batch handed to the Notifier the queue-entry
files are deleted unconditionally during report composition, before any
delivery attempt — even when every one of the 5 attempts fails, no entry
remains; the cycle's delivery outcome is just that of the send loop. -/
theorem c1_flush_consumes_before_delivery (now : Nat)
    (tag_files : List TagFile) (deliver : Nat → Bool)
    (hne : tag_files ≠ []) (hemit : emitDecision now tag_files = true) :
    (monitorCycle now tag_files deliver).1 = [] ∧
    (monitorCycle now tag_files deliver).2 =
      runSendLoop deliver (List.range 5) := by
  simp only [monitorCycle]
  rw [if_neg hne, if_pos hemit]
  exact ⟨rfl, rfl⟩

/-- C1 witness: a concrete flushed batch under an always-failing delivery
capability. -/
theorem c1_flush_consumes_before_delivery_witness :
    (monitorCycle 400 [⟨50, "TTX 55"⟩] (fun _ => false)).1 = [] ∧
    (monitorCycle 400 [⟨50, "TTX 55"⟩] (fun _ => false)).2 =
      runSendLoop (fun _ => false) (List.range 5) :=
  c1_flush_consumes_before_delivery 400 [⟨50, "TTX 55"⟩] (fun _ => false)
    (by decide) (by decide)

/-- C2: with entries aged 10s and 400s the flush decision depends only on
the last-listed entry — listed fresh-first the batch IS flushed (and its
entries are consumed) although one entry is younger than 300s, while the
reverse listing order withholds it, contradicting the all-entries-aged
policy stated by the claim and by the source's own comments. -/
theorem c2_only_last_listed_entry_decides :
    emitDecision 1000 [⟨990, "RAIL 1"⟩, ⟨600, "RAIL 2"⟩] = true ∧
    emitDecision 1000 [⟨600, "RAIL 2"⟩, ⟨990, "RAIL 1"⟩] = false ∧
    (monitorCycle 1000 [⟨990, "RAIL 1"⟩, ⟨600, "RAIL 2"⟩]
      (fun _ => true)).1 = [] := by decide

end AEI
